import Mathlib

/-!
Verification of the poptop core subsystems against their source.

Shallow embedding conventions:
* Go `float64` values are modelled by `F := Option ℚ`: `none` is the IEEE-754
  NaN ("no data" sentinel), `some q` a finite double modelled exactly as a
  rational.  NaN propagation through `+`, `-`, `/` is modelled by the
  `fadd`/`fsub`/`fdivNat` operations below.  Overflow to infinity is out of
  scope (samples are finite).
* Go non-negative `int`/`uint64` quantities are modelled by `ℕ`; where Go
  clamps with `max(0, a-b)` the truncated subtraction of `ℕ` computes the same
  value, which is noted at each use.  Where `uint64` wrap-around matters the
  reduction `% 2^64` is written explicitly.
* Stateful Go methods become functions from state to state.
-/

/-- Model of Go `float64`: `none` is NaN, `some q` a finite value. -/
abbrev F := Option ℚ

/-- Go `+` on float64: NaN propagates. -/
def fadd : F → F → F
  | some a, some b => some (a + b)
  | _, _ => none

/-- Go `-` on float64: NaN propagates. -/
def fsub : F → F → F
  | some a, some b => some (a - b)
  | _, _ => none

/-- Go division of a float64 by a positive integer count (used by `fifoSet.Avg`
with a nonzero denominator); NaN propagates. -/
def fdivNat : F → ℕ → F
  | some a, k => some (a / (k : ℚ))
  | none, _ => none

/-- Embedding of the `fifoSet` struct of the series file: a FIFO running-sum
accumulator of capacity `numValues`. -/
structure fifoSet where
  numValues : ℕ
  values : List F
  sum : F
deriving DecidableEq

/-- Embedding of `newFifoSet`: empty value list; the Go zero value of the
`sum` field is `0.0`, i.e. the finite value `some 0`. -/
def newFifoSet (numValues : ℕ) : fifoSet :=
  { numValues := numValues, values := [], sum := some 0 }

/-- Embedding of `fifoSet.AddValue`: append `v`, add it to the running sum,
and if the window is over-full subtract the evicted head from the sum and drop
it.  `vals` is nonempty at the `vals[0]` access (a value was just appended),
so `headD none` never takes its default. -/
def fifoSet.AddValue (s : fifoSet) (v : F) : fifoSet :=
  let vals := s.values ++ [v]
  let sum := fadd s.sum v
  if s.numValues < vals.length then
    { s with sum := fsub sum (vals.headD none), values := vals.tail }
  else
    { s with sum := sum, values := vals }

/-- Embedding of `fifoSet.Avg`, i.e. `sum / float64(len(values))`.  On an
empty set the Go expression is `0.0 / 0 = NaN`, modelled by `none`; otherwise
the denominator is positive. -/
def fifoSet.Avg (s : fifoSet) : F :=
  if s.values.length = 0 then none else fdivNat s.sum s.values.length

/-- Embedding of the `BoundedSeries` struct. -/
structure BoundedSeries where
  values : List F
  numValues : ℕ
  maxValues : ℕ
  highWater : ℕ
deriving DecidableEq

/-- Embedding of `NewBoundedSeries`: `maxValues = numValues * 2`, a buffer of
`maxValues` NaN slots, `highWater = 0`.  (The Go function performs no
validation of its argument; a negative argument would make `make` panic, and
`ℕ` models the non-negative arguments.) -/
def NewBoundedSeries (numValues : ℕ) : BoundedSeries :=
  { values := List.replicate (numValues * 2) none
    numValues := numValues
    maxValues := numValues * 2
    highWater := 0 }

/-- Embedding of `BoundedSeries.AddValue`: while `highWater < maxValues` the
slot at `highWater` is overwritten in place; afterwards the value is appended
and the slice trimmed to its last `maxValues` entries. -/
def BoundedSeries.AddValue (s : BoundedSeries) (v : F) : BoundedSeries :=
  if s.highWater < s.maxValues then
    { s with values := s.values.set s.highWater v, highWater := s.highWater + 1 }
  else
    let newValues := s.values ++ [v]
    if s.maxValues < newValues.length then
      { s with values := newValues.drop (newValues.length - s.maxValues) }
    else
      { s with values := newValues }

/-- Embedding of `BoundedSeries.Values`:
`start := max(0, highWater-numValues)` (truncated `ℕ` subtraction computes the
same), `end := min(highWater, start+numValues)`, returning the slice
`values[start:end]`, written as take-then-drop. -/
def BoundedSeries.Values (s : BoundedSeries) : List F :=
  let start := s.highWater - s.numValues
  let stop := min s.highWater (start + s.numValues)
  (s.values.take stop).drop start

/-- The loop of `BoundedSeries.SmoothedValues`, iterating directly over the
slice `values[start:highWater]` (passed as the list argument) while tracking
the absolute index `i`; an average is emitted for each index with
`i ≥ highWater - numValues` (`emitFrom ≤ i`; for `highWater < numValues` the
Go comparison is against a negative number and always true, as is `0 ≤ i`). -/
def smoothGo (emitFrom : ℕ) : List F → ℕ → fifoSet → List F
  | [], _, _ => []
  | v :: rest, i, fs =>
    let fs2 := fs.AddValue v
    if emitFrom ≤ i then fs2.Avg :: smoothGo emitFrom rest (i + 1) fs2
    else smoothGo emitFrom rest (i + 1) fs2

/-- Embedding of `BoundedSeries.SmoothedValues`.  For `windowSize ≤ 1` it is
`Values()` unchanged.  Otherwise `start := max(0, highWater-numValues-windowSize)`
(truncated `ℕ` subtraction again), the loop runs over `values[start:highWater]`
emitting into the output array, and the remaining slots are filled with NaN.
Go preallocates `series` of length `numValues` and writes the emissions at
indices `0..`; the emission count never exceeds `numValues` (proved below), so
the result is the emission list followed by NaN padding. -/
def BoundedSeries.SmoothedValues (s : BoundedSeries) (windowSize : ℕ) : List F :=
  if windowSize ≤ 1 then s.Values
  else
    let start := s.highWater - s.numValues - windowSize
    let emitted := smoothGo (s.highWater - s.numValues)
      ((s.values.take s.highWater).drop start) start (newFifoSet windowSize)
    emitted ++ List.replicate (s.numValues - emitted.length) none

/-- Push a list of finite samples into a series, in order (each chart calls
`AddValue` once per tick with a finite float). -/
def pushAll (s : BoundedSeries) (ps : List ℚ) : BoundedSeries :=
  ps.foldl (fun acc q => acc.AddValue (some q)) s

/-- The last `m` elements of a list (the retained suffix). -/
def lastN (m : ℕ) (l : List α) : List α := l.drop (l.length - m)

/-- The repository's own unit test `TestBoundedSeriesSmoothing`, replayed on
the embedding (first assertions). -/
theorem test_bounded_series_smoothing_early :
    (pushAll (NewBoundedSeries 5) [0]).Values = [some 0] ∧
    (pushAll (NewBoundedSeries 5) [0]).SmoothedValues 3 =
      [some 0, none, none, none, none] ∧
    (pushAll (NewBoundedSeries 5) [0, 1]).SmoothedValues 3 =
      [some 0, some (1/2), none, none, none] ∧
    (pushAll (NewBoundedSeries 5) [0, 1, 2, 3, 4]).Values =
      [some 0, some 1, some 2, some 3, some 4] ∧
    (pushAll (NewBoundedSeries 5) [0, 1, 2, 3, 4]).SmoothedValues 3 =
      [some 0, some (1/2), some 1, some 2, some 3] := by
  norm_num [pushAll, NewBoundedSeries, BoundedSeries.AddValue, BoundedSeries.SmoothedValues,
    BoundedSeries.Values, smoothGo, newFifoSet, fifoSet.AddValue, fifoSet.Avg,
    fadd, fsub, fdivNat, List.replicate]

/-- The repository's own unit test `TestBoundedSeriesSmoothing`, replayed on
the embedding (assertions after the display window is full). -/
theorem test_bounded_series_smoothing_late :
    (pushAll (NewBoundedSeries 5) [0, 1, 2, 3, 4, 5, 6]).Values =
      [some 2, some 3, some 4, some 5, some 6] ∧
    (pushAll (NewBoundedSeries 5) [0, 1, 2, 3, 4, 5, 6]).SmoothedValues 1 =
      [some 2, some 3, some 4, some 5, some 6] ∧
    (pushAll (NewBoundedSeries 5) [0, 1, 2, 3, 4, 5, 6]).SmoothedValues 3 =
      [some 1, some 2, some 3, some 4, some 5] := by
  norm_num [pushAll, NewBoundedSeries, BoundedSeries.AddValue, BoundedSeries.SmoothedValues,
    BoundedSeries.Values, smoothGo, newFifoSet, fifoSet.AddValue, fifoSet.Avg,
    fadd, fsub, fdivNat, List.replicate]

/-- Auxiliary: the length of the retained suffix. -/
theorem lastN_length (m : ℕ) (l : List α) : (lastN m l).length = min m l.length := by
  simp [lastN]
  omega

/-- Auxiliary: a list no longer than `m` is its own last-`m` suffix. -/
theorem lastN_of_le {m : ℕ} {l : List α} (h : l.length ≤ m) : lastN m l = l := by
  simp [lastN, Nat.sub_eq_zero_of_le h]

/-- Auxiliary: pushing one more value. -/
theorem pushAll_concat (s : BoundedSeries) (ps : List ℚ) (q : ℚ) :
    pushAll s (ps ++ [q]) = (pushAll s ps).AddValue (some q) := by
  simp [pushAll, List.foldl_concat]

/-- State characterization of a `BoundedSeries` after any push sequence:
the buffer holds the most recent `maxValues = 2n` samples followed by NaN
padding, and `highWater` counts samples, saturating at `2n`. -/
theorem pushAll_eq (n : ℕ) (ps : List ℚ) :
    pushAll (NewBoundedSeries n) ps =
      { values := (lastN (n * 2) ps).map some ++ List.replicate (n * 2 - ps.length) none
        numValues := n
        maxValues := n * 2
        highWater := min ps.length (n * 2) } := by
  induction ps using List.reverseRecOn with
  | nil =>
    simp [pushAll, NewBoundedSeries, lastN]
  | append_singleton ps q ih =>
    rw [pushAll_concat, ih]
    rcases lt_or_ge ps.length (n * 2) with hp | hp
    · have hmin : min ps.length (n * 2) = ps.length := by omega
      have hlast : lastN (n * 2) ps = ps := lastN_of_le (by omega)
      have hrep : n * 2 - ps.length = (n * 2 - (ps.length + 1)) + 1 := by omega
      simp only [BoundedSeries.AddValue, hmin, hlast]
      rw [if_pos hp, hrep, List.replicate_succ]
      have hset : ((ps.map some ++ (none :: List.replicate (n * 2 - (ps.length + 1)) none)).set
          ps.length (some q)) =
          ps.map some ++ (some q :: List.replicate (n * 2 - (ps.length + 1)) none) := by
        rw [List.set_append]
        simp
      rw [hset]
      have hlast2 : lastN (n * 2) (ps ++ [q]) = ps ++ [q] := lastN_of_le (by simp; omega)
      simp [hlast2, BoundedSeries.mk.injEq]
      omega
    · have hmin : min ps.length (n * 2) = n * 2 := by omega
      have hrep : n * 2 - ps.length = 0 := by omega
      have hlenA : ((lastN (n * 2) ps).map some).length = n * 2 := by
        rw [List.length_map, lastN_length]; omega
      simp only [BoundedSeries.AddValue, hmin, hrep, List.replicate_zero, List.append_nil]
      rw [if_neg (lt_irrefl _)]
      have hlen2 : ((lastN (n * 2) ps).map some ++ [some q]).length = n * 2 + 1 := by
        simp [hlenA]
      rw [if_pos (by rw [hlen2]; omega), hlen2]
      have hd : n * 2 + 1 - n * 2 = 1 := by omega
      rw [hd, List.drop_append_eq_append_drop, hlenA]
      have hmin2 : min (ps.length + 1) (n * 2) = n * 2 := by omega
      rcases Nat.eq_zero_or_pos n with hn | hn
    -- n = 0: everything is empty
      · subst hn
        simp [lastN]
      · have h1 : 1 - n * 2 = 0 := by omega
        rw [h1, List.drop_zero]
        have hlast3 : lastN (n * 2) (ps ++ [q]) =
            (ps.drop (ps.length + 1 - n * 2)) ++ [q] := by
          unfold lastN
          rw [List.drop_append_eq_append_drop]
          congr 1
          · congr 1
            simp
          · have h0 : (ps ++ [q]).length - n * 2 - ps.length = 0 := by
              simp
              omega
            rw [h0, List.drop_zero]
        have hdrop1 : List.drop 1 ((lastN (n * 2) ps).map some) =
            (ps.drop (ps.length + 1 - n * 2)).map some := by
          unfold lastN
          rw [← List.map_drop, List.drop_drop]
          congr 2
          omega
        simp [hlast3, hdrop1, BoundedSeries.mk.injEq, hmin2]
        omega

/-- Display window characterization: `Values()` returns exactly the most
recent `min(pushes, numValues)` samples, oldest first, with no padding. -/
theorem values_eq_lastN (n : ℕ) (ps : List ℚ) :
    (pushAll (NewBoundedSeries n) ps).Values = (lastN n ps).map some := by
  rw [pushAll_eq]
  unfold BoundedSeries.Values
  simp only
  have hlenA : ((lastN (n * 2) ps).map some).length = min ps.length (n * 2) := by
    rw [List.length_map, lastN_length]
    omega
  have hstop : min (min ps.length (n * 2)) (min ps.length (n * 2) - n + n) =
      min ps.length (n * 2) := by omega
  rw [hstop, List.take_left' (by rw [hlenA])]
  unfold lastN
  rw [← List.map_drop, List.drop_drop]
  congr 2
  omega

/-- Representation predicate for the FIFO accumulator: the stored float values
are the finite samples `rs`, the running sum is their exact sum, and the
window capacity is respected. -/
def FifoRep (W : ℕ) (s : fifoSet) (rs : List ℚ) : Prop :=
  s.numValues = W ∧ s.values = rs.map some ∧ s.sum = some rs.sum ∧ rs.length ≤ W

/-- The average of a list of rationals as a float: NaN on the empty list
(matching `fifoSet.Avg` on an empty set), else the exact arithmetic mean. -/
def favg (l : List ℚ) : F :=
  if l = [] then none else some (l.sum / (l.length : ℚ))

/-- Auxiliary: `Avg` of a represented accumulator is the mean of the samples. -/
theorem avg_of_rep {W : ℕ} {s : fifoSet} {rs : List ℚ} (h : FifoRep W s rs) :
    s.Avg = favg rs := by
  obtain ⟨hW, hv, hs, hl⟩ := h
  unfold fifoSet.Avg favg
  rw [hv, hs]
  cases rs with
  | nil => simp
  | cons r rs' => simp [fdivNat]

/-- Auxiliary: one `fifoSet.AddValue` step preserves the representation,
retaining the last `W` samples. -/
theorem fifoRep_add {W : ℕ} {s : fifoSet} {rs : List ℚ} (h : FifoRep W s rs) (q : ℚ) :
    FifoRep W (s.AddValue (some q)) (lastN W (rs ++ [q])) := by
  obtain ⟨hW, hv, hs, hl⟩ := h
  unfold fifoSet.AddValue
  simp only [hW, hv, hs]
  by_cases hlen : W < (rs.map some ++ [some q]).length
  · rw [if_pos hlen]
    have hrs : rs.length = W := by
      simp at hlen
      omega
    cases rs with
    | nil =>
      simp at hrs
      subst hrs
      refine ⟨hW ▸ rfl, ?_, ?_, ?_⟩ <;> simp [lastN, fadd, fsub]
    | cons r rs' =>
      have hlast2 : lastN W (r :: (rs' ++ [q])) = rs' ++ [q] := by
        unfold lastN
        have he : (r :: (rs' ++ [q])).length - W = 1 := by
          simp
          simp at hrs
          omega
        rw [he]
        simp
      refine ⟨rfl, ?_, ?_, ?_⟩
      · simp [hlast2]
      · simp [hlast2, fadd, fsub, List.sum_cons, List.sum_append]
        ring
      · simp [hlast2]
        simp at hrs
        omega
  · rw [if_neg hlen]
    have hrs : rs.length + 1 ≤ W := by
      simp at hlen
      omega
    have hlast : lastN W (rs ++ [q]) = rs ++ [q] := lastN_of_le (by simp; omega)
    refine ⟨rfl, ?_, ?_, ?_⟩
    · simp [hlast]
    · simp [hlast, fadd, List.sum_append]
    · simp [hlast]
      omega

/-- Auxiliary: retaining the last `m` is idempotent under later appends. -/
theorem lastN_append (m : ℕ) (l xs : List α) :
    lastN m (lastN m l ++ xs) = lastN m (l ++ xs) := by
  rcases le_or_lt l.length m with h | h
  · rw [lastN_of_le h]
  · unfold lastN
    rw [List.drop_append_eq_append_drop, List.drop_append_eq_append_drop,
        List.drop_drop]
    congr 1
    · congr 1
      simp
      omega
    · congr 1
      simp
      omega

/-- Filtering an interval of consecutive integers by a lower bound. -/
theorem filter_le_range' (c : ℕ) : ∀ (len a : ℕ),
    (List.range' a len).filter (fun t => c ≤ t) =
      List.range' (max a c) (len - (c - a))
  | 0, a => by simp
  | len + 1, a => by
    rw [List.range'_succ, List.filter_cons]
    by_cases h : c ≤ a
    · have h0 : c - a = 0 := by omega
      have hmax : max a c = a := by omega
      rw [if_pos (by simpa using h), filter_le_range' c len (a + 1)]
      have hmax2 : max (a + 1) c = a + 1 := by omega
      have h02 : c - (a + 1) = 0 := by omega
      rw [hmax2, h02, hmax, h0, Nat.sub_zero, Nat.sub_zero, List.range'_succ]
    · rw [if_neg (by simpa using h), filter_le_range' c len (a + 1)]
      have hmax2 : max (a + 1) c = c := by omega
      have hmax : max a c = c := by omega
      rw [hmax2, hmax]
      congr 1
      omega

/-- Full characterization of the smoothing loop: with a represented
accumulator holding `rs` and a stream of finite samples `qs` starting at
absolute index `i`, the loop emits, for each index `t ≥ emitFrom`, the mean of
the last `W` samples seen up to `t`. -/
theorem smoothGo_spec (emitFrom W : ℕ) :
    ∀ (qs : List ℚ) (i : ℕ) (fs : fifoSet) (rs : List ℚ), FifoRep W fs rs →
    smoothGo emitFrom (qs.map some) i fs =
      ((List.range' i qs.length).filter (fun t => emitFrom ≤ t)).map
        (fun t => favg (lastN W (rs ++ qs.take (t + 1 - i))))
  | [], i, fs, rs, _ => by simp [smoothGo]
  | q :: qs', i, fs, rs, h => by
    have h2 := fifoRep_add h q
    have ih := smoothGo_spec emitFrom W qs' (i + 1) (fs.AddValue (some q))
      (lastN W (rs ++ [q])) h2
    simp only [List.map_cons, smoothGo, ih]
    have htail :
        ((List.range' (i + 1) qs'.length).filter (fun t => emitFrom ≤ t)).map
          (fun t => favg (lastN W (lastN W (rs ++ [q]) ++ qs'.take (t + 1 - (i + 1))))) =
        ((List.range' (i + 1) qs'.length).filter (fun t => emitFrom ≤ t)).map
          (fun t => favg (lastN W (rs ++ (q :: qs').take (t + 1 - i)))) := by
      apply List.map_congr_left
      intro t ht
      simp only [List.mem_filter, List.mem_range'_1] at ht
      congr 1
      rw [lastN_append]
      have hk : t + 1 - i = (t - i) + 1 := by omega
      have hk2 : t + 1 - (i + 1) = t - i := by omega
      rw [hk, hk2, List.take_succ_cons]
      simp
    rw [htail]
    have hhead : (fs.AddValue (some q)).Avg = favg (lastN W (rs ++ (q :: qs').take (i + 1 - i))) := by
      rw [avg_of_rep h2]
      congr 2
      simp
    rw [List.length_cons, List.range'_succ, List.filter_cons]
    by_cases hi : emitFrom ≤ i
    · rw [if_pos hi, if_pos (show (decide (emitFrom ≤ i)) = true by simpa using hi),
        List.map_cons, hhead]
    · rw [if_neg hi, if_neg (show ¬(decide (emitFrom ≤ i)) = true by simpa using hi)]

/-- Auxiliary: the retained suffix of a nonempty list is nonempty. -/
theorem lastN_ne_nil {m : ℕ} {l : List α} (hm : 1 ≤ m) (hl : l ≠ []) : lastN m l ≠ [] := by
  have h1 := lastN_length m l
  have h2 : 0 < l.length := List.length_pos.mpr hl
  intro h
  rw [h] at h1
  simp at h1
  omega

/-- Master characterization of `SmoothedValues` for a window `≥ 2`: the output
is, for each display position, the mean of the last `W` retained samples up to
that position, followed by NaN padding for the positions without history. -/
theorem smoothed_emitted (n W : ℕ) (hW : 2 ≤ W) (ps : List ℚ) :
    (pushAll (NewBoundedSeries n) ps).SmoothedValues W =
      (List.range' (min ps.length (n * 2) - n) (min ps.length n)).map
        (fun t => favg (lastN W (((lastN (n * 2) ps).drop
          (min ps.length (n * 2) - n - W)).take
          (t + 1 - (min ps.length (n * 2) - n - W))))) ++
      List.replicate (n - min ps.length n) none := by
  rw [pushAll_eq]
  unfold BoundedSeries.SmoothedValues
  rw [if_neg (by omega)]
  simp only
  have hA : ((lastN (n * 2) ps).map some).length = min ps.length (n * 2) := by
    rw [List.length_map, lastN_length]
    omega
  rw [List.take_left' hA, ← List.map_drop]
  rw [smoothGo_spec (min ps.length (n * 2) - n) W
    ((lastN (n * 2) ps).drop (min ps.length (n * 2) - n - W))
    (min ps.length (n * 2) - n - W) (newFifoSet W) []
    ⟨rfl, rfl, by simp [newFifoSet], by simp⟩]
  simp only [List.nil_append]
  have hqlen : ((lastN (n * 2) ps).drop (min ps.length (n * 2) - n - W)).length =
      min ps.length (n * 2) - (min ps.length (n * 2) - n - W) := by
    rw [List.length_drop, lastN_length]
    omega
  rw [hqlen, filter_le_range']
  have hrange : max (min ps.length (n * 2) - n - W) (min ps.length (n * 2) - n) =
      min ps.length (n * 2) - n := by omega
  have hcount : min ps.length (n * 2) - (min ps.length (n * 2) - n - W) -
      (min ps.length (n * 2) - n - (min ps.length (n * 2) - n - W)) = min ps.length n := by
    omega
  rw [hrange, hcount]
  congr 1
  rw [List.length_map, List.length_range']

/-- C1 (amended, proved): for every capacity and push sequence, `Values()`
returns exactly the most recent `min(pushes, requestedCapacity)` samples in
arrival order, with no sentinel padding; in particular, once at least
`requestedCapacity` values have been pushed it is exactly the most recent
`requestedCapacity` pushed values, oldest first. -/
theorem displayWindow_spec (n : ℕ) (ps : List ℚ) :
    (pushAll (NewBoundedSeries n) ps).Values = (lastN n ps).map some ∧
    ((pushAll (NewBoundedSeries n) ps).Values).length = min ps.length n := by
  refine ⟨values_eq_lastN n ps, ?_⟩
  rw [values_eq_lastN, List.length_map, lastN_length]
  omega

/-- C1 counterexample: with `requestedCapacity = 5` and a single push,
`Values()` returns a list of length 1, not 5 — there is no left-padding with
the NaN sentinel. -/
theorem displayWindow_not_padded :
    ((pushAll (NewBoundedSeries 5) [(0 : ℚ)]).Values).length ≠ 5 := by
  norm_num [pushAll, NewBoundedSeries, BoundedSeries.AddValue, BoundedSeries.Values,
    List.replicate]

/-- C2 (amended, proved): for every smoothing window `W ≥ 2` and every push
sequence, the display series has exactly `requestedCapacity` elements; the
first `min(pushes, requestedCapacity)` positions hold finite averages (never
the sentinel, never fabricated) and every remaining position carries the NaN
sentinel. -/
theorem smoothed_display_invariant (n W : ℕ) (ps : List ℚ) (hW : 2 ≤ W) :
    ((pushAll (NewBoundedSeries n) ps).SmoothedValues W).length = n ∧
    (∀ x ∈ ((pushAll (NewBoundedSeries n) ps).SmoothedValues W).take (min ps.length n),
      x ≠ none) ∧
    ((pushAll (NewBoundedSeries n) ps).SmoothedValues W).drop (min ps.length n) =
      List.replicate (n - min ps.length n) none := by
  rw [smoothed_emitted n W hW ps]
  have hElen :
      ((List.range' (min ps.length (n * 2) - n) (min ps.length n)).map
        (fun t => favg (lastN W (((lastN (n * 2) ps).drop
          (min ps.length (n * 2) - n - W)).take
          (t + 1 - (min ps.length (n * 2) - n - W)))))).length = min ps.length n := by
    rw [List.length_map, List.length_range']
  refine ⟨?_, ?_, ?_⟩
  · rw [List.length_append, hElen, List.length_replicate]
    omega
  · rw [List.take_left' hElen]
    intro x hx
    rw [List.mem_map] at hx
    obtain ⟨t, ht, rfl⟩ := hx
    rw [List.mem_range'_1] at ht
    have hne : (((lastN (n * 2) ps).drop (min ps.length (n * 2) - n - W)).take
        (t + 1 - (min ps.length (n * 2) - n - W))) ≠ [] := by
      have hlen : ((lastN (n * 2) ps).drop (min ps.length (n * 2) - n - W)).length =
          min ps.length (n * 2) - (min ps.length (n * 2) - n - W) := by
        rw [List.length_drop, lastN_length]
        omega
      intro h
      have := congrArg List.length h
      rw [List.length_take, hlen] at this
      simp at this
      omega
    have hne2 := lastN_ne_nil (m := W) (by omega) hne
    simp [favg, hne2]
  · rw [List.drop_left' hElen]

/-- C2 counterexample: with `requestedCapacity = 5`, window size 1 and a
single push, `SmoothedValues(1)` falls through to `Values()` and has length 1,
not 5 — the "exactly requestedCapacity elements" invariant fails for window
sizes `≤ 1`. -/
theorem smoothed_window_one_short :
    ((pushAll (NewBoundedSeries 5) [(0 : ℚ)]).SmoothedValues 1).length ≠ 5 := by
  norm_num [pushAll, NewBoundedSeries, BoundedSeries.AddValue, BoundedSeries.SmoothedValues,
    BoundedSeries.Values, List.replicate]

/-- Witness for the C2 theorem at capacity 5, window 3, two pushes. -/
theorem smoothed_display_invariant_witness :
    ((pushAll (NewBoundedSeries 5) [(0 : ℚ), 1]).SmoothedValues 3).length = 5 ∧
    (∀ x ∈ ((pushAll (NewBoundedSeries 5) [(0 : ℚ), 1]).SmoothedValues 3).take
      (min [(0 : ℚ), 1].length 5), x ≠ none) ∧
    ((pushAll (NewBoundedSeries 5) [(0 : ℚ), 1]).SmoothedValues 3).drop
      (min [(0 : ℚ), 1].length 5) =
      List.replicate (5 - min [(0 : ℚ), 1].length 5) none :=
  smoothed_display_invariant 5 3 [(0 : ℚ), 1] (by norm_num)

/-- Auxiliary: the last `W` of a `take` window inside a dropped prefix. -/
theorem lastN_take_drop (W k b : ℕ) (ps : List ℚ) (hk : W ≤ k) (hlen : k ≤ ps.length - b) :
    lastN W ((ps.drop b).take k) = (ps.drop (b + k - W)).take W := by
  unfold lastN
  rw [List.length_take, List.length_drop]
  have hmin : min k (ps.length - b) = k := by omega
  rw [hmin, List.drop_take, List.drop_drop]
  congr 1
  · omega
  · congr 1
    omega

/-- C3 (amended, proved): for a window `1 < W ≤ requestedCapacity + 1`, once at
least `requestedCapacity + W` samples have been pushed, every element of
`SmoothedValues(W)` is finite (never the sentinel) and equals the arithmetic
mean of the `W` raw pushed samples ending at that display position. -/
theorem smoothed_full_window (n W : ℕ) (ps : List ℚ) (hW : 2 ≤ W) (hWn : W ≤ n + 1)
    (hp : n + W ≤ ps.length) :
    ∀ j < n, ((pushAll (NewBoundedSeries n) ps).SmoothedValues W)[j]? =
      some (some (((ps.drop (ps.length - n + j + 1 - W)).take W).sum / (W : ℚ))) := by
  intro j hj
  rw [smoothed_emitted n W hW ps]
  have hmn : min ps.length n = n := by omega
  rw [hmn, Nat.sub_self, List.replicate_zero, List.append_nil, List.getElem?_map,
    List.getElem?_range' _ _ (show j < n by omega)]
  simp only [Option.map_some', one_mul]
  have hhw : n + W - 1 ≤ min ps.length (n * 2) := by omega
  have hlastN : lastN (n * 2) ps = ps.drop (ps.length - n * 2) := rfl
  rw [hlastN, List.drop_drop]
  have hfull := lastN_take_drop W
      (min ps.length (n * 2) - n + j + 1 - (min ps.length (n * 2) - n - W))
      (ps.length - n * 2 + (min ps.length (n * 2) - n - W)) ps (by omega) (by omega)
  rw [hfull]
  have harg : ps.length - n * 2 + (min ps.length (n * 2) - n - W) +
      (min ps.length (n * 2) - n + j + 1 - (min ps.length (n * 2) - n - W)) - W =
      ps.length - n + j + 1 - W := by omega
  rw [harg]
  have hLlen : ((ps.drop (ps.length - n + j + 1 - W)).take W).length = W := by
    rw [List.length_take, List.length_drop]
    omega
  have hLne : ((ps.drop (ps.length - n + j + 1 - W)).take W) ≠ [] := by
    intro h
    rw [h] at hLlen
    simp at hLlen
    omega
  rw [favg, if_neg hLne, hLlen]

/-- C3 counterexample: with `requestedCapacity = 1` and window `W = 3`
(exceeding the 2×capacity retention), after `capacity + W = 4` pushes the
single displayed element is the mean of only the 2 retained samples, `7/2`,
not the mean `3` of the 3 raw samples ending at that position. -/
theorem smoothed_oversized_window_not_mean :
    ((pushAll (NewBoundedSeries 1) [(1 : ℚ), 2, 3, 4]).SmoothedValues 3)[0]? =
      some (some (7 / 2)) ∧
    (7 / 2 : ℚ) ≠ ((([(1 : ℚ), 2, 3, 4].drop
      ([(1 : ℚ), 2, 3, 4].length - 1 + 0 + 1 - 3)).take 3).sum / (3 : ℚ)) := by
  constructor
  · norm_num [pushAll, NewBoundedSeries, BoundedSeries.AddValue, BoundedSeries.SmoothedValues,
      BoundedSeries.Values, smoothGo, newFifoSet, fifoSet.AddValue, fifoSet.Avg,
      fadd, fsub, fdivNat, List.replicate]
  · norm_num

/-- Witness for the C3 theorem at capacity 2, window 2, four pushes: the first
display position is the mean `(2+3)/2 = 5/2` of the two raw samples ending
there. -/
theorem smoothed_full_window_witness :
    ((pushAll (NewBoundedSeries 2) [(1 : ℚ), 2, 3, 4]).SmoothedValues 2)[0]? =
      some (some (5 / 2)) := by
  have h := smoothed_full_window 2 2 [(1 : ℚ), 2, 3, 4] (by norm_num) (by norm_num)
    (by norm_num) 0 (by norm_num)
  norm_num [List.sum_cons] at h
  exact h

/-- C8 counterexample: `NewBoundedSeries 0` is not rejected — the constructor
has no error channel and performs no validation; the resulting degenerate
store has an empty buffer and silently ignores pushes. -/
theorem new_bounded_series_zero_accepted :
    (NewBoundedSeries 0).maxValues = 0 ∧
    ((NewBoundedSeries 0).AddValue (some 5)).Values = [] := by
  norm_num [NewBoundedSeries, BoundedSeries.AddValue, BoundedSeries.Values, List.replicate]

/-- C8 (amended, proved): construction never validates or clamps its argument:
for every requested capacity the constructor succeeds and returns the store
with `maxValues = 2 * capacity` verbatim, and the degenerate capacity-0 store
accepts every push while its display window stays empty. -/
theorem new_bounded_series_no_validation (n : ℕ) (ps : List ℚ) :
    NewBoundedSeries n =
      { values := List.replicate (n * 2) none, numValues := n, maxValues := n * 2,
        highWater := 0 } ∧
    (pushAll (NewBoundedSeries 0) ps).Values = [] := by
  refine ⟨rfl, ?_⟩
  rw [values_eq_lastN]
  simp [lastN]

/-- Split orientation of a termdash container split: the layout code only ever
constructs `SplitHorizontal`, but `SplitVertical` exists in the rendering
library, so both are represented. -/
inductive Orient where
  | horizontal
  | vertical
deriving DecidableEq

/-- A layout tree: either a widget (a `[]container.Option` bundle, abstracted
as `α`) or a binary split with an orientation. -/
inductive LayoutNode (α : Type) where
  | widget (w : α)
  | split (o : Orient) (first second : LayoutNode α)
deriving DecidableEq

/-- The widgets of a layout tree, left to right. -/
def LayoutNode.leavesList {α : Type} : LayoutNode α → List α
  | .widget w => [w]
  | .split _ a b => a.leavesList ++ b.leavesList

/-- The orientations of all split nodes of a layout tree, in preorder. -/
def LayoutNode.splitOrients {α : Type} : LayoutNode α → List Orient
  | .widget _ => []
  | .split o a b => o :: (a.splitOrients ++ b.splitOrients)

/-- Loop of `nextPower2`: double `n` until it reaches `i`.  The `0 < n` guard
is needed for termination in Lean and only changes the behaviour at `n = 0`,
where the Go loop would not terminate; `nextPower2` always starts at `n = 1`. -/
def np2go (i n : ℕ) : ℕ :=
  if h : 0 < n ∧ n < i then np2go i (n * 2) else n
termination_by i - n
decreasing_by omega

/-- Embedding of `nextPower2`: the first power of two `≥ i`. -/
def nextPower2 (i : ℕ) : ℕ := np2go i 1

/-- Embedding of `layoutR`.  The Go function indexes `widgets[rangeA]` (always
in bounds for the ranges `layout` generates), modelled with `getD`; the
`b ≤ a` guard is required for termination in Lean and is unreachable from
`layout` (the Go recursion would not terminate there either).  Every split the
code builds is a `SplitHorizontal` of the two halves. -/
def layoutR {α : Type} [Inhabited α] (ws : List α) (a b : ℕ) : LayoutNode α :=
  if hba : b ≤ a then .widget (ws.getD a default)
  else if hab : a + 1 = b then
    if ws.length ≤ b then .widget (ws.getD a default)
    else .split .horizontal (.widget (ws.getD a default)) (.widget (ws.getD b default))
  else
    let rangeAb := (b - a + 1) / 2 + a - 1
    let rangeBa := rangeAb + 1
    let widgetA := layoutR ws a rangeAb
    if ws.length ≤ rangeBa then widgetA
    else .split .horizontal widgetA (layoutR ws rangeBa b)
termination_by b - a
decreasing_by
  · omega
  · omega

/-- Embedding of `layout`: a typed error on the empty list, the sole widget
unwrapped for a singleton, and otherwise the recursive split over the range
`[0, nextPower2(len) - 1]`. -/
def layout {α : Type} [Inhabited α] (ws : List α) : Except String (LayoutNode α) :=
  if ws.length = 0 then .error "No widgets initialized, failing."
  else if ws.length = 1 then .ok (.widget (ws.getD 0 default))
  else .ok (layoutR ws 0 (nextPower2 ws.length - 1))

/-- Auxiliary: `nextPower2` is at least its argument. -/
theorem np2go_ge (i n : ℕ) (hn : 0 < n) : i ≤ np2go i n := by
  unfold np2go
  split
  · next h => exact np2go_ge i (n * 2) (by omega)
  · next h => omega
termination_by i - n
decreasing_by omega

/-- Auxiliary: `np2go` sends powers of two to powers of two. -/
theorem np2go_pow (i k : ℕ) : ∃ m, np2go i (2 ^ k) = 2 ^ m := by
  unfold np2go
  split
  · next h =>
    have h2 : 2 ^ k * 2 = 2 ^ (k + 1) := by
      rw [pow_succ]
    rw [h2]
    exact np2go_pow i (k + 1)
  · exact ⟨k, rfl⟩
termination_by i - 2 ^ k
decreasing_by
  simp only [pow_succ]
  omega

/-- Auxiliary: the slice `[a, a+1)` of a list. -/
theorem drop_take_one {α : Type} [Inhabited α] (ws : List α) (a : ℕ) (h : a < ws.length) :
    (ws.take (a + 1)).drop a = [ws.getD a default] := by
  have h1 : a + 1 - a = 1 := by omega
  rw [List.drop_take, h1, List.drop_eq_getElem_cons h, List.take_succ_cons, List.take_zero,
    List.getD_eq_getElem?_getD, List.getElem?_eq_getElem h]
  rfl

/-- Auxiliary: the slice `[a, a+2)` of a list. -/
theorem drop_take_two {α : Type} [Inhabited α] (ws : List α) (a : ℕ) (h : a + 1 < ws.length) :
    (ws.take (a + 2)).drop a = [ws.getD a default, ws.getD (a + 1) default] := by
  have h1 : a + 2 - a = 2 := by omega
  rw [List.drop_take, h1, List.drop_eq_getElem_cons (show a < ws.length by omega),
    List.take_succ_cons, List.drop_eq_getElem_cons h, List.take_succ_cons, List.take_zero,
    List.getD_eq_getElem?_getD, List.getD_eq_getElem?_getD,
    List.getElem?_eq_getElem h, List.getElem?_eq_getElem (show a < ws.length by omega)]
  rfl

/-- Auxiliary: gluing an initial slice to the rest of a longer slice. -/
theorem drop_take_glue {α : Type} (L : List α) (a m : ℕ) (ham : a ≤ m) :
    (L.take m).drop a ++ L.drop m = L.drop a := by
  conv_rhs => rw [← List.take_append_drop m L]
  rw [List.drop_append_eq_append_drop]
  congr 1
  rw [List.length_take]
  rcases le_or_lt m L.length with h | h
  · have h0 : a - min m L.length = 0 := by omega
    rw [h0, List.drop_zero]
  · have h2 : L.drop m = [] := List.drop_eq_nil_of_le (by omega)
    rw [h2]
    simp

/-- Auxiliary: adjacent slices of a list concatenate. -/
theorem slice_glue {α : Type} (l : List α) (a m M : ℕ) (ham : a ≤ m) (hmM : m ≤ M) :
    (l.take m).drop a ++ (l.take M).drop m = (l.take M).drop a := by
  have hmm : l.take m = (l.take M).take m := by
    rw [List.take_take]
    congr 1
    omega
  rw [hmm, drop_take_glue (l.take M) a m ham]

/-- Core layout correctness: for ranges of power-of-two size starting in
bounds (the only ones `layout` generates), the leaves of `layoutR ws a b` are
exactly the widgets `ws[a], …, ws[min(b, len-1)]` in order. -/
theorem layoutR_leaves {α : Type} [Inhabited α] (ws : List α) (a b k : ℕ)
    (ha : a < ws.length) (hsize : b + 1 = a + 2 ^ (k + 1)) :
    (layoutR ws a b).leavesList = (ws.take (min (b + 1) ws.length)).drop a := by
  have h2 : 2 ≤ 2 ^ (k + 1) := by
    calc 2 = 2 ^ 1 := by norm_num
    _ ≤ 2 ^ (k + 1) := Nat.pow_le_pow_right (by norm_num) (by omega)
  have hba : ¬ b ≤ a := by omega
  unfold layoutR
  rw [dif_neg hba]
  by_cases hab : a + 1 = b
  · rw [dif_pos hab]
    by_cases hlb : ws.length ≤ b
    · rw [if_pos hlb]
      have hmin : min (b + 1) ws.length = a + 1 := by omega
      simp only [LayoutNode.leavesList]
      rw [hmin, drop_take_one ws a ha]
    · rw [if_neg hlb]
      have hmin : min (b + 1) ws.length = b + 1 := by omega
      simp only [LayoutNode.leavesList]
      rw [hmin, ← hab, drop_take_two ws a (by omega)]
      rfl
  · rw [dif_neg hab]
    have hk1 : 1 ≤ k := by
      by_contra hk0
      have hk0' : k = 0 := by omega
      subst hk0'
      norm_num at hsize
      omega
    have hpow : 2 ^ (k + 1) = 2 * 2 ^ k := by
      rw [pow_succ]
      ring
    have hm1 : 1 ≤ 2 ^ k := Nat.one_le_two_pow
    have hhalf : (b - a + 1) / 2 = 2 ^ k := by
      have hba1 : b - a + 1 = 2 ^ (k + 1) := by omega
      rw [hba1, hpow]
      omega
    simp only [hhalf]
    have ihL := layoutR_leaves ws a (2 ^ k + a - 1) (k - 1) ha
      (by
        have hkk : k - 1 + 1 = k := by omega
        rw [hkk]
        omega)
    by_cases hrb : ws.length ≤ 2 ^ k + a - 1 + 1
    · rw [if_pos hrb, ihL]
      congr 2
      omega
    · rw [if_neg hrb]
      have ihR := layoutR_leaves ws (2 ^ k + a - 1 + 1) b (k - 1) (by omega)
        (by
          have hkk : k - 1 + 1 = k := by omega
          rw [hkk]
          omega)
      simp only [LayoutNode.leavesList]
      rw [ihL, ihR]
      have hAb : 2 ^ k + a - 1 + 1 = a + 2 ^ k := by omega
      rw [hAb]
      have hmin1 : min (a + 2 ^ k) ws.length = a + 2 ^ k := by omega
      rw [hmin1]
      exact slice_glue ws a (a + 2 ^ k) (min (b + 1) ws.length) (by omega) (by omega)
termination_by b - a
decreasing_by
  · omega
  · omega

/-- Auxiliary: `nextPower2 i` is at least `i`. -/
theorem nextPower2_ge (i : ℕ) : i ≤ nextPower2 i :=
  np2go_ge i 1 (by norm_num)

/-- Auxiliary: `nextPower2 i` is a power of two. -/
theorem nextPower2_pow (i : ℕ) : ∃ m, nextPower2 i = 2 ^ m := by
  have h := np2go_pow i 0
  simpa [nextPower2] using h

/-- C4 (proved): for every non-empty widget list, `layout` succeeds with a
tree whose leaves are exactly the widgets in their original order; in
`layoutR`, a final two-slot range whose second index is beyond the widget
count returns the single real widget unwrapped (never a split with a blank
sibling), and a right half starting beyond the widget count is pruned
entirely (only the left recursion's tree is returned). -/
theorem layout_tree_spec {α : Type} [Inhabited α] (ws : List α) (hne : ws ≠ []) :
    (∃ t, layout ws = Except.ok t ∧ t.leavesList = ws) ∧
    (∀ a b, a + 1 = b → ws.length ≤ b →
      layoutR ws a b = LayoutNode.widget (ws.getD a default)) ∧
    (∀ a b, a + 2 ≤ b → ws.length ≤ (b - a + 1) / 2 + a - 1 + 1 →
      layoutR ws a b = layoutR ws a ((b - a + 1) / 2 + a - 1)) := by
  have hlen0 : ws.length ≠ 0 := by
    simpa [List.length_eq_zero] using hne
  refine ⟨?_, ?_, ?_⟩
  · by_cases h1 : ws.length = 1
    · obtain ⟨x, rfl⟩ := List.length_eq_one.mp h1
      refine ⟨LayoutNode.widget x, ?_, rfl⟩
      unfold layout
      rw [if_neg hlen0, if_pos h1]
      simp
    · refine ⟨layoutR ws 0 (nextPower2 ws.length - 1),
        by unfold layout; rw [if_neg hlen0, if_neg h1], ?_⟩
      obtain ⟨m, hm⟩ := nextPower2_pow ws.length
      have hge := nextPower2_ge ws.length
      have hm1 : 1 ≤ m := by
        by_contra hm0
        have hm0' : m = 0 := by omega
        subst hm0'
        norm_num at hm
        omega
      rw [layoutR_leaves ws 0 (nextPower2 ws.length - 1) (m - 1) (by omega)
        (by
          have hkk : m - 1 + 1 = m := by omega
          rw [hkk, ← hm]
          omega)]
      have hmin : min (nextPower2 ws.length - 1 + 1) ws.length = ws.length := by omega
      rw [hmin, List.take_length, List.drop_zero]
  · intro a b hab hlb
    unfold layoutR
    rw [dif_neg (by omega), dif_pos hab, if_pos hlb]
  · intro a b hab2 hcond
    conv_lhs => unfold layoutR
    rw [dif_neg (by omega), dif_neg (by omega)]
    simp only
    rw [if_pos hcond]

/-- Witness for the C4 theorem on the spec's 5-widget example. -/
theorem layout_tree_spec_witness :
    (∃ t, layout ([1, 2, 3, 4, 5] : List ℕ) = Except.ok t ∧ t.leavesList = [1, 2, 3, 4, 5]) ∧
    (∀ a b, a + 1 = b → ([1, 2, 3, 4, 5] : List ℕ).length ≤ b →
      layoutR ([1, 2, 3, 4, 5] : List ℕ) a b =
        LayoutNode.widget (([1, 2, 3, 4, 5] : List ℕ).getD a default)) ∧
    (∀ a b, a + 2 ≤ b → ([1, 2, 3, 4, 5] : List ℕ).length ≤ (b - a + 1) / 2 + a - 1 + 1 →
      layoutR ([1, 2, 3, 4, 5] : List ℕ) a b =
        layoutR ([1, 2, 3, 4, 5] : List ℕ) a ((b - a + 1) / 2 + a - 1)) :=
  layout_tree_spec [1, 2, 3, 4, 5] (by simp)

/-- C5 (proved): `layout` on the empty list returns the typed "no widgets"
error as a normal failure value (the embedding is total, so no panic), and a
single-widget list returns that widget itself, not wrapped in any split.  The
widget list is never mutated: `layout`/`layoutR` are functions of the list and
the embedding is purely functional, mirroring the Go code, which only reads
the slice. -/
theorem layout_empty_error_single_unwrapped (α : Type) [Inhabited α] :
    layout ([] : List α) = Except.error "No widgets initialized, failing." ∧
    ∀ w : α, layout [w] = Except.ok (LayoutNode.widget w) := by
  constructor
  · rfl
  · intro w
    rfl

/-- All split nodes `layoutR` ever builds are horizontal. -/
theorem layoutR_orients {α : Type} [Inhabited α] (ws : List α) (a b : ℕ) :
    ∀ o ∈ (layoutR ws a b).splitOrients, o = Orient.horizontal := by
  unfold layoutR
  by_cases hba : b ≤ a
  · rw [dif_pos hba]
    simp [LayoutNode.splitOrients]
  · rw [dif_neg hba]
    by_cases hab : a + 1 = b
    · rw [dif_pos hab]
      by_cases hlb : ws.length ≤ b
      · rw [if_pos hlb]
        simp [LayoutNode.splitOrients]
      · rw [if_neg hlb]
        simp [LayoutNode.splitOrients]
    · rw [dif_neg hab]
      simp only
      by_cases hrb : ws.length ≤ (b - a + 1) / 2 + a - 1 + 1
      · rw [if_pos hrb]
        exact layoutR_orients ws a ((b - a + 1) / 2 + a - 1)
      · rw [if_neg hrb]
        intro o ho
        simp only [LayoutNode.splitOrients, List.mem_cons, List.mem_append] at ho
        rcases ho with h | h | h
        · exact h
        · exact layoutR_orients ws a ((b - a + 1) / 2 + a - 1) o h
        · exact layoutR_orients ws ((b - a + 1) / 2 + a - 1 + 1) b o h
termination_by b - a
decreasing_by
  · omega
  · omega
  · omega

/-- C9 (amended, proved): the layout code has no tile-mode or orientation
input at all — every split node of every tree `layout` produces is a
horizontal (stacked) split; orientation never varies with recursion depth. -/
theorem layout_splits_all_horizontal {α : Type} [Inhabited α] (ws : List α)
    (t : LayoutNode α) (h : layout ws = Except.ok t) :
    t.splitOrients = List.replicate t.splitOrients.length Orient.horizontal := by
  rw [List.eq_replicate_iff]
  refine ⟨rfl, ?_⟩
  intro o ho
  unfold layout at h
  by_cases h0 : ws.length = 0
  · rw [if_pos h0] at h
    cases h
  · rw [if_neg h0] at h
    by_cases h1 : ws.length = 1
    · rw [if_pos h1] at h
      cases h
      simp [LayoutNode.splitOrients] at ho
    · rw [if_neg h1] at h
      cases h
      exact layoutR_orients ws 0 (nextPower2 ws.length - 1) o ho

/-- C9 counterexample: the concrete 4-widget layout, where the claimed tiled
orientation flip would have to appear, consists of three split nodes that are
all horizontal — there is no orientation flag or tile mode in the code, and no
two split nodes anywhere differ in orientation. -/
theorem layout_no_orientation_flip_concrete :
    (layoutR ([1, 2, 3, 4] : List ℕ) 0 3).splitOrients =
      [Orient.horizontal, Orient.horizontal, Orient.horizontal] := by
  simp [layoutR, LayoutNode.splitOrients]

/-- Witness for the C9 theorem on the concrete 4-widget layout. -/
theorem layout_splits_all_horizontal_witness :
    (layoutR ([1, 2, 3, 4] : List ℕ) 0 3).splitOrients =
      List.replicate (layoutR ([1, 2, 3, 4] : List ℕ) 0 3).splitOrients.length
        Orient.horizontal :=
  layout_splits_all_horizontal [1, 2, 3, 4] (layoutR [1, 2, 3, 4] 0 3)
    (by simp [layout, nextPower2, np2go])

/-- Per-interface cumulative counters from `net.IOCountersWithContext`
(`name`, `BytesSent`, `BytesRecv`); counters are `uint64`. -/
structure NetIOStat where
  name : String
  bytesSent : ℕ
  bytesRecv : ℕ
deriving DecidableEq

/-- Embedding of `findNetworkDevice`: the first interface attaining the
maximal `BytesRecv` (strict improvement, fold from a zero maximum); when every
interface reports zero the Go function panics, modelled by `none`. -/
def findNetworkDevice (iostat : List NetIOStat) : Option NetIOStat :=
  let p := iostat.foldl
    (fun (acc : ℕ × NetIOStat) st =>
      if acc.1 < st.bytesRecv then (st.bytesRecv, st) else acc)
    (0, ⟨"", 0, 0⟩)
  if p.1 = 0 then none else some p.2

/-- The closure state of `newNetChart`'s sampler tick: tracked device name,
the two series, and the previous absolute readings. -/
structure NetChartState where
  device : String
  sent : BoundedSeries
  recv : BoundedSeries
  lastSent : ℕ
  lastRecv : ℕ
deriving DecidableEq

/-- Embedding of one tick of the `newNetChart` sampler closure.  `factor` is
`uint64(time.Second / config.SampleInterval)`; `uint64` multiplication wraps
modulo `2^64`, and `newX - lastX` is `uint64` subtraction, also modulo
`2^64`.  A device change (including the very first tick, when `device` is the
empty string) discards both series and the delta state before anything is
emitted; an emission happens only when the previous reading is nonzero.  The
pushed float is modelled exactly (conversion of a `uint64` to `float64` can
round in Go; the claims here concern only which values are emitted).  `none`
models the panic inside `findNetworkDevice`; the chart-library update calls
have no effect on this state. -/
def netTick (numSamples factor : ℕ) (s : NetChartState) (iostats : List NetIOStat) :
    Option NetChartState :=
  match findNetworkDevice iostats with
  | none => none
  | some iostat =>
    let s1 := if iostat.name ≠ s.device then
        { device := iostat.name
          sent := NewBoundedSeries numSamples
          recv := NewBoundedSeries numSamples
          lastSent := 0
          lastRecv := 0 }
      else s
    let newSent := iostat.bytesSent * factor % 2 ^ 64 / 1024
    let newRecv := iostat.bytesRecv * factor % 2 ^ 64 / 1024
    let dSent : ℚ := ((newSent + 2 ^ 64 - s1.lastSent) % 2 ^ 64 : ℕ)
    let dRecv : ℚ := ((newRecv + 2 ^ 64 - s1.lastRecv) % 2 ^ 64 : ℕ)
    let s2 := if s1.lastSent ≠ 0 then { s1 with sent := s1.sent.AddValue (some dSent) } else s1
    let s3 := { s2 with lastSent := newSent }
    let s4 := if s3.lastRecv ≠ 0 then { s3 with recv := s3.recv.AddValue (some dRecv) } else s3
    some { s4 with lastRecv := newRecv }

/-- C6 (proved): on any tick whose busiest interface differs from the tracked
one, both series are replaced by fresh empty stores and the delta state is
cleared before any emission — the resulting series contain no samples at all
on the switch tick (`highWater = 0`), so no delta against the old interface's
(or a zero) reading is ever pushed; and on a tick with an unchanged device,
a zero previous reading (the per-stream first tick) suppresses the emission
entirely, leaving the series untouched. -/
theorem netTick_device_switch (numSamples factor : ℕ) (s : NetChartState)
    (iostats : List NetIOStat) (st : NetIOStat)
    (hfind : findNetworkDevice iostats = some st) :
    (st.name ≠ s.device →
      ∃ s', netTick numSamples factor s iostats = some s' ∧
        s'.device = st.name ∧
        s'.sent = NewBoundedSeries numSamples ∧
        s'.recv = NewBoundedSeries numSamples ∧
        s'.sent.highWater = 0 ∧ s'.recv.highWater = 0) ∧
    (st.name = s.device → s.lastSent = 0 → s.lastRecv = 0 →
      ∃ s', netTick numSamples factor s iostats = some s' ∧
        s'.sent = s.sent ∧ s'.recv = s.recv) := by
  constructor
  · intro hne
    unfold netTick
    rw [hfind]
    simp only [if_pos hne]
    norm_num [NewBoundedSeries]
  · intro heq h1 h2
    unfold netTick
    rw [hfind]
    simp only [heq, ne_eq, not_true_eq_false, if_neg, ite_false, if_false]
    simp [h1, h2]

/-- Witness for the C6 theorem: a first tick (empty tracked device) on a
single-interface snapshot yields fresh, empty series with no emission. -/
theorem netTick_device_switch_witness :
    ∃ s', netTick 3 2 ⟨"", NewBoundedSeries 3, NewBoundedSeries 3, 0, 0⟩
        [⟨"eth0", 10, 20⟩] = some s' ∧
      s'.device = "eth0" ∧
      s'.sent = NewBoundedSeries 3 ∧
      s'.recv = NewBoundedSeries 3 ∧
      s'.sent.highWater = 0 ∧ s'.recv.highWater = 0 :=
  (netTick_device_switch 3 2 ⟨"", NewBoundedSeries 3, NewBoundedSeries 3, 0, 0⟩
    [⟨"eth0", 10, 20⟩] ⟨"eth0", 10, 20⟩ (by rfl)).1 (by simp)

/-- Widget identifiers, in `iota` order. -/
abbrev WidgetCPULoad : ℕ := 0

/-- Widget identifier for the CPU percentage chart. -/
abbrev WidgetCPUPerc : ℕ := 1

/-- Widget identifier for the network IO chart. -/
abbrev WidgetNetworkIO : ℕ := 2

/-- Widget identifier for the disk IOPS chart. -/
abbrev WidgetDiskIOPS : ℕ := 3

/-- Widget identifier for the disk IO chart. -/
abbrev WidgetDiskIO : ℕ := 4

/-- Widget identifier for the top-CPU process list. -/
abbrev WidgetTopCPU : ℕ := 5

/-- Widget identifier for the top-memory process list. -/
abbrev WidgetTopMem : ℕ := 6

/-- The configuration fields relevant to the verified components. -/
structure PoptopConfig where
  widgets : List ℕ
  selectWidgetsMode : Bool
  topRowsShown : ℕ
deriving DecidableEq

/-- Embedding of `DefaultConfig`. -/
def DefaultConfig : PoptopConfig :=
  { widgets := [WidgetCPULoad, WidgetCPUPerc, WidgetNetworkIO, WidgetDiskIOPS]
    selectWidgetsMode := false
    topRowsShown := 25 }

/-- Embedding of the `PsProcess` record parsed from one `ps auxc` row. -/
structure PsProcess where
  user : String
  pid : ℤ
  cpuPerc : ℚ
  memPerc : ℚ
  command : String
deriving DecidableEq

/-- Descending CPU-percentage comparison, `procs[i].CpuPerc > procs[j].CpuPerc`
as a (total, transitive) ordering. -/
def cpuGe (a b : PsProcess) : Prop := b.cpuPerc ≤ a.cpuPerc

/-- Descending memory-percentage comparison. -/
def memGe (a b : PsProcess) : Prop := b.memPerc ≤ a.memPerc

instance : DecidableRel cpuGe := fun a b => inferInstanceAs (Decidable (b.cpuPerc ≤ a.cpuPerc))

instance : DecidableRel memGe := fun a b => inferInstanceAs (Decidable (b.memPerc ≤ a.memPerc))

instance : IsTotal PsProcess cpuGe := ⟨fun a b => le_total b.cpuPerc a.cpuPerc⟩

instance : IsTrans PsProcess cpuGe := ⟨fun _ _ _ h1 h2 => le_trans h2 h1⟩

instance : IsTotal PsProcess memGe := ⟨fun a b => le_total b.memPerc a.memPerc⟩

instance : IsTrans PsProcess memGe := ⟨fun _ _ _ h1 h2 => le_trans h2 h1⟩

/-- Embedding of `topProcesses` applied to an already-parsed snapshot: sort
the snapshot by descending CPU share and copy the first
`min(TopRowsShown, len)` entries, then re-sort the same slice by descending
memory share and copy the first `min(TopRowsShown, len)` entries.  Go uses the
unstable comparison sort `sort.Slice`; the embedding uses a comparison sort
(`insertionSort`) — every property claimed (lengths, descending order,
same-snapshot membership) holds for any comparison sort.  `copy` into a slice
of length `min(TopRowsShown, len)` takes exactly the first that many
elements. -/
def topProcesses (procs : List PsProcess) (topRowsShown : ℕ) :
    List PsProcess × List PsProcess :=
  let byCpu := List.insertionSort cpuGe procs
  let procsByCpu := byCpu.take (min topRowsShown procs.length)
  let byMem := List.insertionSort memGe byCpu
  let procsByMem := byMem.take (min topRowsShown procs.length)
  (procsByCpu, procsByMem)

/-- C10 (proved): for every snapshot and row cap, each list `topProcesses`
returns is the first `min(TopRowsShown, number of processes)` entries of the
whole snapshot arranged in descending order — a prefix of a descending-sorted
permutation of the one shared snapshot (by CPU share for the first list, by
memory share for the second), so each list consists of the top
`min(TopRowsShown, n)` processes, without fabrication or repetition beyond
what the snapshot itself contains; each has length exactly
`min(TopRowsShown, n)`, is non-increasing in its key, draws its elements from
the snapshot, and the default configuration sets `TopRowsShown = 25`.  (Go's
`sort.Slice` is unstable, so among tied keys the retained representatives may
vary; the existential over the sorted permutation is exactly the
sort-algorithm-independent statement.) -/
theorem topProcesses_spec (procs : List PsProcess) (k : ℕ) :
    (∃ sortedC : List PsProcess, sortedC.Perm procs ∧ sortedC.Sorted cpuGe ∧
      (topProcesses procs k).1 = sortedC.take (min k procs.length)) ∧
    (∃ sortedM : List PsProcess, sortedM.Perm procs ∧ sortedM.Sorted memGe ∧
      (topProcesses procs k).2 = sortedM.take (min k procs.length)) ∧
    (topProcesses procs k).1.length = min k procs.length ∧
    (topProcesses procs k).2.length = min k procs.length ∧
    (topProcesses procs k).1.Sorted cpuGe ∧
    (topProcesses procs k).2.Sorted memGe ∧
    (∀ x ∈ (topProcesses procs k).1, x ∈ procs) ∧
    (∀ x ∈ (topProcesses procs k).2, x ∈ procs) ∧
    DefaultConfig.topRowsShown = 25 := by
  have hlenC : (List.insertionSort cpuGe procs).length = procs.length :=
    (List.perm_insertionSort cpuGe procs).length_eq
  have hlenM : (List.insertionSort memGe (List.insertionSort cpuGe procs)).length =
      procs.length := by
    rw [(List.perm_insertionSort memGe _).length_eq, hlenC]
  refine ⟨?_, ?_, ?_, ?_, ?_, ?_, ?_, ?_, rfl⟩
  · exact ⟨List.insertionSort cpuGe procs, List.perm_insertionSort cpuGe procs,
      List.sorted_insertionSort cpuGe procs, rfl⟩
  · exact ⟨List.insertionSort memGe (List.insertionSort cpuGe procs),
      (List.perm_insertionSort memGe _).trans (List.perm_insertionSort cpuGe procs),
      List.sorted_insertionSort memGe _, rfl⟩
  · simp only [topProcesses, List.length_take, hlenC]
    omega
  · simp only [topProcesses, List.length_take, hlenM]
    omega
  · exact (List.sorted_insertionSort cpuGe procs).sublist (List.take_sublist _ _)
  · exact (List.sorted_insertionSort memGe _).sublist (List.take_sublist _ _)
  · intro x hx
    have hx2 : x ∈ List.insertionSort cpuGe procs := List.take_subset _ _ hx
    exact (List.perm_insertionSort cpuGe procs).subset hx2
  · intro x hx
    have hx2 : x ∈ List.insertionSort memGe (List.insertionSort cpuGe procs) :=
      List.take_subset _ _ hx
    exact (List.perm_insertionSort cpuGe procs).subset
      ((List.perm_insertionSort memGe _).subset hx2)

/-- A widget render handle: a chart handle (tagged by its widget id and by the
construction that produced it) or one of the two text boxes a single
`newTopBoxes` call produces (tagged by that call). -/
inductive WidgetHandle where
  | chart (id : ℕ) (token : ℕ)
  | topCpuBox (token : ℕ)
  | topMemBox (token : ℕ)
deriving DecidableEq

/-- A started sampler goroutine: each `new*Chart` starts one task for its own
widget; one `newTopBoxes` call starts exactly one task shared by the
top-CPU/top-memory pair. -/
inductive SamplerTask where
  | chartTask (id : ℕ) (token : ℕ)
  | topBoxesTask (token : ℕ)
deriving DecidableEq

/-- Which widget ids a sampler task was constructed for. -/
def SamplerTask.buildsId : SamplerTask → ℕ → Prop
  | .chartTask i _, id => i = id
  | .topBoxesTask _, id => id = WidgetTopCPU ∨ id = WidgetTopMem

/-- Whether a task is the shared top-boxes task. -/
def SamplerTask.isTopBoxes : SamplerTask → Bool
  | .topBoxesTask _ => true
  | _ => false

/-- The widget cache: a Go `map[int][]container.Option`, modelled as a finite
partial map. -/
def WidgetCache : Type := ℕ → Option WidgetHandle

/-- Embedding of `newWidgetCache`: the empty map. -/
def newWidgetCache : WidgetCache := fun _ => none

/-- Go map assignment `cache[id] = h`. -/
def cacheInsert (c : WidgetCache) (id : ℕ) (h : WidgetHandle) : WidgetCache :=
  fun idq => if idq = id then some h else c idq

/-- Result of a `getWidgets` call: the handles in request order, the mutated
cache, the next fresh construction token, and the sampler tasks started
during the call (instrumentation of the widget constructors). -/
structure GetWidgetsResult where
  widgets : List WidgetHandle
  cache : WidgetCache
  fresh : ℕ
  tasks : List SamplerTask

/-- Embedding of `getWidgets` (the cached variant): for each requested id, a
cache hit reuses the existing handle and constructs nothing; a miss runs the
widget's constructor.  A miss on either member of the coupled pair calls
`newTopBoxes` — one shared task producing both boxes — and caches the sibling
immediately (`cache[WidgetTopMem] = topMem` resp. `cache[WidgetTopCPU] =
topCpu`) before the loop's own `cache[widgetRef] = newWidget`.  A miss on a
chart id (`≤ 4`) constructs that chart and its task.  An id outside the switch
leaves `newWidget` nil and the Go code panics, modelled by `none`.
Constructor errors (chart-library failures) are environmental and not
modelled. -/
def getWidgets (ids : List ℕ) (cache : WidgetCache) (fresh : ℕ) :
    Option GetWidgetsResult :=
  match ids with
  | [] => some ⟨[], cache, fresh, []⟩
  | id :: rest =>
    match cache id with
    | some h =>
      match getWidgets rest cache fresh with
      | none => none
      | some r => some ⟨h :: r.widgets, r.cache, r.fresh, r.tasks⟩
    | none =>
      if id = WidgetTopCPU then
        let topCpu := WidgetHandle.topCpuBox fresh
        let topMem := WidgetHandle.topMemBox fresh
        let c2 := cacheInsert (cacheInsert cache WidgetTopMem topMem) WidgetTopCPU topCpu
        match getWidgets rest c2 (fresh + 1) with
        | none => none
        | some r => some ⟨topCpu :: r.widgets, r.cache, r.fresh,
            SamplerTask.topBoxesTask fresh :: r.tasks⟩
      else if id = WidgetTopMem then
        let topCpu := WidgetHandle.topCpuBox fresh
        let topMem := WidgetHandle.topMemBox fresh
        let c2 := cacheInsert (cacheInsert cache WidgetTopCPU topCpu) WidgetTopMem topMem
        match getWidgets rest c2 (fresh + 1) with
        | none => none
        | some r => some ⟨topMem :: r.widgets, r.cache, r.fresh,
            SamplerTask.topBoxesTask fresh :: r.tasks⟩
      else if id ≤ 4 then
        let w := WidgetHandle.chart id fresh
        let c1 := cacheInsert cache id w
        match getWidgets rest c1 (fresh + 1) with
        | none => none
        | some r => some ⟨w :: r.widgets, r.cache, r.fresh,
            SamplerTask.chartTask id fresh :: r.tasks⟩
      else none

/-- The invariant every cache reachable from `newWidgetCache` satisfies: the
coupled top-CPU/top-memory entries are cached jointly. -/
def pairCoupled (c : WidgetCache) : Prop :=
  (c WidgetTopCPU).isSome ↔ (c WidgetTopMem).isSome

/-- C7 counterexample: from the (unreachable) cache state holding a top-CPU
handle but no top-memory handle, requesting `[topCPU, topMem]` rebuilds the
coupled pair: the cached top-CPU binding is overwritten with a freshly
constructed handle and a task that builds top-CPU is started again. -/
theorem getWidgets_stale_pair_rebuild :
    ∃ r, getWidgets [WidgetTopCPU, WidgetTopMem]
        (cacheInsert newWidgetCache WidgetTopCPU (WidgetHandle.topCpuBox 0)) 1 = some r ∧
      r.cache WidgetTopCPU ≠ some (WidgetHandle.topCpuBox 0) ∧
      ∃ t ∈ r.tasks, t.buildsId WidgetTopCPU := by
  refine ⟨⟨[WidgetHandle.topCpuBox 0, WidgetHandle.topMemBox 1],
    cacheInsert (cacheInsert (cacheInsert newWidgetCache WidgetTopCPU (WidgetHandle.topCpuBox 0))
      WidgetTopCPU (WidgetHandle.topCpuBox 1)) WidgetTopMem (WidgetHandle.topMemBox 1),
    2, [SamplerTask.topBoxesTask 1]⟩, ?_, ?_, ?_⟩
  · rfl
  · simp [cacheInsert, newWidgetCache, WidgetTopCPU, WidgetTopMem]
  · exact ⟨SamplerTask.topBoxesTask 1, by simp, Or.inl rfl⟩

/-- C7 (amended, proved): for every request list of valid widget ids and every
cache state in which the coupled top-CPU/top-memory pair is cached jointly —
the invariant established by `newWidgetCache` (empty) and preserved by every
`getWidgets` call — `getWidgets` succeeds and: the pair invariant is
preserved; every cached binding survives untouched; no sampler task is
started for any id already in the cache; requesting either pair member with
the pair uncached starts exactly one shared top-boxes task (and none when it
is cached), after which both members are cached, so a later sibling request
is a hit; and every requested id that was cached is answered positionally
with exactly the cached handle. -/
theorem getWidgets_cache_spec (ids : List ℕ) :
    ∀ (cache : WidgetCache) (fresh : ℕ),
    (∀ id ∈ ids, id ≤ 6) → pairCoupled cache →
    ∃ r, getWidgets ids cache fresh = some r ∧
      pairCoupled r.cache ∧
      (∀ id h, cache id = some h → r.cache id = some h) ∧
      (∀ id, (cache id).isSome → ∀ t ∈ r.tasks, ¬ t.buildsId id) ∧
      (r.tasks.countP SamplerTask.isTopBoxes =
        if (WidgetTopCPU ∈ ids ∨ WidgetTopMem ∈ ids) ∧ cache WidgetTopCPU = none
        then 1 else 0) ∧
      ((WidgetTopCPU ∈ ids ∨ WidgetTopMem ∈ ids) →
        (r.cache WidgetTopCPU).isSome ∧ (r.cache WidgetTopMem).isSome) ∧
      r.widgets.length = ids.length ∧
      (∀ (j : ℕ) (wid : ℕ) (h : WidgetHandle), ids[j]? = some wid → cache wid = some h →
        r.widgets[j]? = some h) := by
  induction ids with
  | nil =>
    intro cache fresh _ hcoup
    refine ⟨⟨[], cache, fresh, []⟩, rfl, hcoup, ?_, ?_, ?_, ?_, rfl, ?_⟩
    · intro idq hq hh
      exact hh
    · intro idq _ t ht
      simp at ht
    · simp
    · intro habs
      simp at habs
    · intro j wid hq hj
      simp at hj
  | cons id rest ih =>
    intro cache fresh hvalid hcoup
    have hvr : ∀ i ∈ rest, i ≤ 6 := fun i hi => hvalid i (List.mem_cons_of_mem _ hi)
    cases hc : cache id with
    | some h0 =>
      obtain ⟨r, hr, hrc, hpres, hnt, hcount, hpair, hlen, hpos⟩ := ih cache fresh hvr hcoup
      refine ⟨⟨h0 :: r.widgets, r.cache, r.fresh, r.tasks⟩, ?_, hrc, hpres, hnt, ?_, ?_, ?_, ?_⟩
      · simp only [getWidgets, hc, hr]
      · rw [hcount]
        by_cases hnone : cache WidgetTopCPU = none
        · have hne5 : id ≠ WidgetTopCPU := by
            intro he
            rw [he, hnone] at hc
            cases hc
          have hne6 : id ≠ WidgetTopMem := by
            intro he
            have h6s : (cache WidgetTopMem).isSome := by
              rw [← he, hc]
              rfl
            have h5s := hcoup.mpr h6s
            rw [hnone] at h5s
            cases h5s
          have hiff : ((WidgetTopCPU ∈ id :: rest ∨ WidgetTopMem ∈ id :: rest) ∧
              cache WidgetTopCPU = none) ↔
              ((WidgetTopCPU ∈ rest ∨ WidgetTopMem ∈ rest) ∧ cache WidgetTopCPU = none) := by
            simp only [List.mem_cons]
            constructor
            · rintro ⟨h | h, hn⟩
              · rcases h with h | h
                · exact absurd h.symm hne5
                · exact ⟨Or.inl h, hn⟩
              · rcases h with h | h
                · exact absurd h.symm hne6
                · exact ⟨Or.inr h, hn⟩
            · rintro ⟨h, hn⟩
              exact ⟨h.imp Or.inr Or.inr, hn⟩
          rw [if_congr hiff.symm rfl rfl]
        · simp [hnone]
      · intro hmem
        have key : ∀ v, cache WidgetTopCPU = some v ∨ cache WidgetTopMem = some v →
            (r.cache WidgetTopCPU).isSome ∧ (r.cache WidgetTopMem).isSome := by
          intro v hv
          have hboth : (cache WidgetTopCPU).isSome ∧ (cache WidgetTopMem).isSome := by
            rcases hv with hv | hv
            · exact ⟨by rw [hv]; rfl, hcoup.mp (by rw [hv]; rfl)⟩
            · exact ⟨hcoup.mpr (by rw [hv]; rfl), by rw [hv]; rfl⟩
          obtain ⟨v5, hv5⟩ := Option.isSome_iff_exists.mp hboth.1
          obtain ⟨v6, hv6⟩ := Option.isSome_iff_exists.mp hboth.2
          exact ⟨by rw [hpres _ _ hv5]; rfl, by rw [hpres _ _ hv6]; rfl⟩
        rcases hmem with hm | hm
        · rcases List.mem_cons.mp hm with he | hmr
          · exact key h0 (Or.inl (by rw [← he] at hc; exact hc))
          · exact hpair (Or.inl hmr)
        · rcases List.mem_cons.mp hm with he | hmr
          · exact key h0 (Or.inr (by rw [← he] at hc; exact hc))
          · exact hpair (Or.inr hmr)
      · simp [hlen]
      · intro j wid hq hj hcw
        cases j with
        | zero =>
          simp only [List.getElem?_cons_zero, Option.some.injEq] at hj
          subst hj
          rw [hc] at hcw
          cases hcw
          simp
        | succ jq =>
          simp only [List.getElem?_cons_succ] at hj
          have := hpos jq wid hq hj hcw
          simpa using this
    | none =>
      by_cases h5 : id = WidgetTopCPU
      · subst h5
        have hcoup2 : pairCoupled (cacheInsert (cacheInsert cache WidgetTopMem
            (WidgetHandle.topMemBox fresh)) WidgetTopCPU (WidgetHandle.topCpuBox fresh)) := by
          unfold pairCoupled
          simp [cacheInsert]
        have hpres2 : ∀ idq hq, cache idq = some hq →
            (cacheInsert (cacheInsert cache WidgetTopMem (WidgetHandle.topMemBox fresh))
              WidgetTopCPU (WidgetHandle.topCpuBox fresh)) idq = some hq := by
          intro idq hq hcq
          have hne5 : idq ≠ WidgetTopCPU := by
            intro he
            rw [he, hc] at hcq
            cases hcq
          have hne6 : idq ≠ WidgetTopMem := by
            intro he
            have h6s : (cache WidgetTopMem).isSome := by
              rw [← he, hcq]
              rfl
            have h5s := hcoup.mpr h6s
            rw [hc] at h5s
            cases h5s
          simp [cacheInsert, hne5, hne6, hcq]
        obtain ⟨r, hr, hrc, hpr, hnt, hcount, hpair, hlen, hpos⟩ :=
          ih (cacheInsert (cacheInsert cache WidgetTopMem (WidgetHandle.topMemBox fresh))
            WidgetTopCPU (WidgetHandle.topCpuBox fresh)) (fresh + 1) hvr hcoup2
        refine ⟨⟨WidgetHandle.topCpuBox fresh :: r.widgets, r.cache, r.fresh,
          SamplerTask.topBoxesTask fresh :: r.tasks⟩, ?_, hrc, ?_, ?_, ?_, ?_, ?_, ?_⟩
        · simp only [getWidgets, hc, if_true]
          rw [hr]
        · intro idq hq hcq
          exact hpr idq hq (hpres2 idq hq hcq)
        · intro idq hsome t ht
          obtain ⟨hq, hcq⟩ := Option.isSome_iff_exists.mp hsome
          have hne5 : idq ≠ WidgetTopCPU := by
            intro he
            rw [he, hc] at hcq
            cases hcq
          have hne6 : idq ≠ WidgetTopMem := by
            intro he
            have h6s : (cache WidgetTopMem).isSome := by
              rw [← he, hcq]
              rfl
            have h5s := hcoup.mpr h6s
            rw [hc] at h5s
            cases h5s
          rcases List.mem_cons.mp ht with rfl | hmem
          · intro hb
            rcases hb with hb | hb
            · exact hne5 hb
            · exact hne6 hb
          · exact hnt idq (by rw [hpres2 idq hq hcq]; rfl) t hmem
        · rw [List.countP_cons, hcount]
          have hc25 : (cacheInsert (cacheInsert cache WidgetTopMem
              (WidgetHandle.topMemBox fresh)) WidgetTopCPU (WidgetHandle.topCpuBox fresh))
              WidgetTopCPU = some (WidgetHandle.topCpuBox fresh) := by
            simp [cacheInsert]
          rw [hc25]
          simp [SamplerTask.isTopBoxes, hc]
        · intro _
          constructor
          · rw [hpr WidgetTopCPU (WidgetHandle.topCpuBox fresh) (by simp [cacheInsert])]
            rfl
          · rw [hpr WidgetTopMem (WidgetHandle.topMemBox fresh) (by simp [cacheInsert])]
            rfl
        · simp [hlen]
        · intro j wid hq hj hcw
          cases j with
          | zero =>
            simp only [List.getElem?_cons_zero, Option.some.injEq] at hj
            subst hj
            rw [hc] at hcw
            cases hcw
          | succ jq =>
            simp only [List.getElem?_cons_succ] at hj
            have := hpos jq wid hq hj (hpres2 wid hq hcw)
            simpa using this
      · by_cases h6 : id = WidgetTopMem
        · subst h6
          have hcoup2 : pairCoupled (cacheInsert (cacheInsert cache WidgetTopCPU
              (WidgetHandle.topCpuBox fresh)) WidgetTopMem (WidgetHandle.topMemBox fresh)) := by
            unfold pairCoupled
            simp [cacheInsert]
          have hpres2 : ∀ idq hq, cache idq = some hq →
              (cacheInsert (cacheInsert cache WidgetTopCPU (WidgetHandle.topCpuBox fresh))
                WidgetTopMem (WidgetHandle.topMemBox fresh)) idq = some hq := by
            intro idq hq hcq
            have hne6 : idq ≠ WidgetTopMem := by
              intro he
              rw [he, hc] at hcq
              cases hcq
            have hne5 : idq ≠ WidgetTopCPU := by
              intro he
              have h5s : (cache WidgetTopCPU).isSome := by
                rw [← he, hcq]
                rfl
              have h6s := hcoup.mp h5s
              rw [hc] at h6s
              cases h6s
            simp [cacheInsert, hne5, hne6, hcq]
          obtain ⟨r, hr, hrc, hpr, hnt, hcount, hpair, hlen, hpos⟩ :=
            ih (cacheInsert (cacheInsert cache WidgetTopCPU (WidgetHandle.topCpuBox fresh))
              WidgetTopMem (WidgetHandle.topMemBox fresh)) (fresh + 1) hvr hcoup2
          refine ⟨⟨WidgetHandle.topMemBox fresh :: r.widgets, r.cache, r.fresh,
            SamplerTask.topBoxesTask fresh :: r.tasks⟩, ?_, hrc, ?_, ?_, ?_, ?_, ?_, ?_⟩
          · simp only [getWidgets, hc, if_true]
            rw [hr, if_neg h5]
          · intro idq hq hcq
            exact hpr idq hq (hpres2 idq hq hcq)
          · intro idq hsome t ht
            obtain ⟨hq, hcq⟩ := Option.isSome_iff_exists.mp hsome
            have hne6 : idq ≠ WidgetTopMem := by
              intro he
              rw [he, hc] at hcq
              cases hcq
            have hne5 : idq ≠ WidgetTopCPU := by
              intro he
              have h5s : (cache WidgetTopCPU).isSome := by
                rw [← he, hcq]
                rfl
              have h6s := hcoup.mp h5s
              rw [hc] at h6s
              cases h6s
            rcases List.mem_cons.mp ht with rfl | hmem
            · intro hb
              rcases hb with hb | hb
              · exact hne5 hb
              · exact hne6 hb
            · exact hnt idq (by rw [hpres2 idq hq hcq]; rfl) t hmem
          · rw [List.countP_cons, hcount]
            have hc25 : (cacheInsert (cacheInsert cache WidgetTopCPU
                (WidgetHandle.topCpuBox fresh)) WidgetTopMem (WidgetHandle.topMemBox fresh))
                WidgetTopCPU = some (WidgetHandle.topCpuBox fresh) := by
              simp [cacheInsert, WidgetTopCPU, WidgetTopMem]
            rw [hc25]
            have hcn : (cache WidgetTopCPU = none) := by
              cases hcs : cache WidgetTopCPU with
              | none => rfl
              | some v =>
                have h6s := hcoup.mp (by rw [hcs]; rfl)
                rw [hc] at h6s
                cases h6s
            simp [SamplerTask.isTopBoxes, hcn]
          · intro _
            constructor
            · rw [hpr WidgetTopCPU (WidgetHandle.topCpuBox fresh)
                (by simp [cacheInsert, WidgetTopCPU, WidgetTopMem])]
              rfl
            · rw [hpr WidgetTopMem (WidgetHandle.topMemBox fresh) (by simp [cacheInsert])]
              rfl
          · simp [hlen]
          · intro j wid hq hj hcw
            cases j with
            | zero =>
              simp only [List.getElem?_cons_zero, Option.some.injEq] at hj
              subst hj
              rw [hc] at hcw
              cases hcw
            | succ jq =>
              simp only [List.getElem?_cons_succ] at hj
              have := hpos jq wid hq hj (hpres2 wid hq hcw)
              simpa using this
        · have hid4 : id ≤ 4 := by
            have := hvalid id (List.mem_cons_self _ _)
            simp [WidgetTopCPU] at h5
            simp [WidgetTopMem] at h6
            omega
          have hcoup1 : pairCoupled (cacheInsert cache id (WidgetHandle.chart id fresh)) := by
            unfold pairCoupled
            have e5 : (cacheInsert cache id (WidgetHandle.chart id fresh)) WidgetTopCPU =
                cache WidgetTopCPU := by
              simp [cacheInsert]
              intro he
              omega
            have e6 : (cacheInsert cache id (WidgetHandle.chart id fresh)) WidgetTopMem =
                cache WidgetTopMem := by
              simp [cacheInsert]
              intro he
              omega
            rw [e5, e6]
            exact hcoup
          have hpres1 : ∀ idq hq, cache idq = some hq →
              (cacheInsert cache id (WidgetHandle.chart id fresh)) idq = some hq := by
            intro idq hq hcq
            have hne : idq ≠ id := by
              intro he
              rw [he, hc] at hcq
              cases hcq
            simp [cacheInsert, hne, hcq]
          obtain ⟨r, hr, hrc, hpr, hnt, hcount, hpair, hlen, hpos⟩ :=
            ih (cacheInsert cache id (WidgetHandle.chart id fresh)) (fresh + 1) hvr hcoup1
          refine ⟨⟨WidgetHandle.chart id fresh :: r.widgets, r.cache, r.fresh,
            SamplerTask.chartTask id fresh :: r.tasks⟩, ?_, hrc, ?_, ?_, ?_, ?_, ?_, ?_⟩
          · simp only [getWidgets, hc]
            rw [if_neg h5, if_neg h6, if_pos hid4, hr]
          · intro idq hq hcq
            exact hpr idq hq (hpres1 idq hq hcq)
          · intro idq hsome t ht
            obtain ⟨hq, hcq⟩ := Option.isSome_iff_exists.mp hsome
            have hne : idq ≠ id := by
              intro he
              rw [he, hc] at hcq
              cases hcq
            rcases List.mem_cons.mp ht with rfl | hmem
            · intro hb
              exact hne hb.symm
            · exact hnt idq (by rw [hpres1 idq hq hcq]; rfl) t hmem
          · rw [List.countP_cons, hcount]
            have e5 : (cacheInsert cache id (WidgetHandle.chart id fresh)) WidgetTopCPU =
                cache WidgetTopCPU := by
              simp [cacheInsert]
              intro he
              omega
            rw [e5]
            have hiff : ((WidgetTopCPU ∈ rest ∨ WidgetTopMem ∈ rest) ∧
                cache WidgetTopCPU = none) ↔
                ((WidgetTopCPU ∈ id :: rest ∨ WidgetTopMem ∈ id :: rest) ∧
                  cache WidgetTopCPU = none) := by
              simp only [List.mem_cons]
              constructor
              · rintro ⟨h, hn⟩
                exact ⟨h.imp Or.inr Or.inr, hn⟩
              · rintro ⟨h | h, hn⟩
                · rcases h with h | h
                  · exact absurd h.symm h5
                  · exact ⟨Or.inl h, hn⟩
                · rcases h with h | h
                  · exact absurd h.symm h6
                  · exact ⟨Or.inr h, hn⟩
            rw [if_congr hiff rfl rfl]
            simp [SamplerTask.isTopBoxes]
          · intro hmem
            have hmr : WidgetTopCPU ∈ rest ∨ WidgetTopMem ∈ rest := by
              rcases hmem with hm | hm
              · rcases List.mem_cons.mp hm with he | hm2
                · exact absurd he.symm h5
                · exact Or.inl hm2
              · rcases List.mem_cons.mp hm with he | hm2
                · exact absurd he.symm h6
                · exact Or.inr hm2
            exact hpair hmr
          · simp [hlen]
          · intro j wid hq hj hcw
            cases j with
            | zero =>
              simp only [List.getElem?_cons_zero, Option.some.injEq] at hj
              subst hj
              rw [hc] at hcw
              cases hcw
            | succ jq =>
              simp only [List.getElem?_cons_succ] at hj
              have := hpos jq wid hq hj (hpres1 wid hq hcw)
              simpa using this

/-- Witness for the C7 theorem: from the empty cache, requesting the coupled
pair starts exactly one shared task and leaves both members cached. -/
theorem getWidgets_cache_spec_witness :
    ∃ r, getWidgets [WidgetTopCPU, WidgetTopMem] newWidgetCache 0 = some r ∧
      r.tasks.countP SamplerTask.isTopBoxes = 1 ∧
      (r.cache WidgetTopCPU).isSome ∧ (r.cache WidgetTopMem).isSome := by
  obtain ⟨r, hr, _, _, _, hcount, hpair, _, _⟩ :=
    getWidgets_cache_spec [WidgetTopCPU, WidgetTopMem] newWidgetCache 0
      (by decide) (by simp [pairCoupled, newWidgetCache])
  refine ⟨r, hr, ?_, ?_, ?_⟩
  · rw [hcount]
    simp [newWidgetCache]
  · exact (hpair (Or.inl (by simp))).1
  · exact (hpair (Or.inl (by simp))).2
